import Mathlib

/-!
Formal model of the `timers` package (segmentio/timers): the `Timeline`
deadline-sharing cache.

The Go source is embedded shallowly:

* `time.Time` and `time.Duration` values are modelled by their nanosecond
  count as `Int` (Go stores both in `int64`; none of the operations used by
  the package overflow for the inputs considered here, and Go's `int64`
  division/remainder are exactly `Int.tdiv` / `Int.tmod`).
* A `context.Context` produced by `context.WithDeadline` is modelled by a
  unique identifier (object identity) together with the deadline instant it
  was created with; the effect of invoking its cancel function is recorded
  in the timeline state (`cancelledIds`).
* The `Timeline` methods are executed by a single caller, so `sync.RWMutex`
  sections are atomic and the `tryLockCleanup` compare-and-swap gate is
  always won; under this sequential semantics the double-checked re-lookup
  performed under the exclusive lock returns the same result as the
  fast-path lookup, and the two collapse. (The concurrent creation race is
  treated separately by the `Race` model below.)
* `jitter r` draws a random offset in `[0, r)`; the draw is passed to
  `Timeline.Context` as the explicit argument `j`, and theorems quantify
  over `0 ≤ j < r`. Per its documentation, `rand.Int63n` panics when its
  bound is not positive; a panic of the Go code is modelled by `Context`
  returning `none`.
* The optional `Background` parent context only affects cancellation
  propagation from outside the timeline; no claim below depends on it, so
  it is not carried in the state.
-/

/-- Models the Go struct `deadline`: the pair of a context and its cancel
function, as stored in the timeline's bucket map. `id` is the object
identity of the context created by `context.WithDeadline`, and `deadline`
is the instant that `context.Deadline()` reports (the jittered expiration
passed at creation; the default background parent carries no deadline of
its own). -/
structure DeadlineCtx where
  id : Nat
  deadline : Int
deriving DecidableEq, Repr

/-- Models the Go struct `Timeline`. `Resolution` is the configuration
field (`0` meaning unset, see `Timeline.resolution`); `deadlines` is the
bucket map `map[int64]deadline`, represented as an association list whose
keys are pairwise distinct in every reachable state; `cleanupTime` is the
atomically published next-sweep-due instant; `nextId` feeds fresh context
identities; `cancelledIds` records every context whose cancel function has
been invoked. -/
structure Timeline where
  Resolution : Int := 0
  deadlines : List (Int × DeadlineCtx) := []
  cleanupTime : Int := 0
  nextId : Nat := 0
  cancelledIds : List Nat := []
deriving DecidableEq, Repr

/-- Map lookup on the association list representing `map[int64]deadline`. -/
def lookupDeadline : List (Int × DeadlineCtx) → Int → Option DeadlineCtx
  | [], _ => none
  | (k, d) :: rest, key => if k = key then some d else lookupDeadline rest key

/-- The bucket-key computation of `Timeline.Context` (lines 90-97): round
`k` up to the nearest multiple of the resolution `r` unless it already is a
multiple. Go's `int64` division truncates toward zero (`Int.tdiv`) and its
remainder follows the dividend's sign (`Int.tmod`). -/
def bucketKey (r k : Int) : Int :=
  if Int.tmod k r ≠ 0 then (Int.tdiv k r + 1) * r else k

/-- Written from the spec's words, for comparison with `bucketKey`: the
ceiling of `k` to the nearest multiple of `r`, i.e. the smallest multiple
of `r` that is greater than or equal to `k` (for `0 < r`; see
`ceilKey_spec`). `Int./` is Euclidean division, which floors for a
positive divisor, so `-((-k) / r)` is the ceiling of the exact quotient. -/
def ceilKey (r k : Int) : Int :=
  r * (-((-k) / r))

namespace Timeline

/-- Models `Timeline.resolution`: the `Resolution` field when non-zero,
otherwise the documented 100ms default (in nanoseconds). -/
def resolution (t : Timeline) : Int :=
  if t.Resolution ≠ 0 then t.Resolution else 100000000

/-- Models `Timeline.cleanup`: scan the bucket map and, for every entry
whose context deadline is more than one resolution in the past
(`now.After(deadline.Add(r))`), invoke its cancel function and delete it
from the map. -/
def cleanup (t : Timeline) (now : Int) : Timeline :=
  let r := t.resolution
  { t with
    deadlines := t.deadlines.filter (fun kd => !(decide (kd.2.deadline + r < now))),
    cancelledIds :=
      (t.deadlines.filter (fun kd => decide (kd.2.deadline + r < now))).map (fun kd => kd.2.id)
        ++ t.cancelledIds }

/-- Models `Timeline.Cancel`: cancel every bucket's context and reset the
map (Go sets it to `nil`; the empty list plays the role of the nil map,
which is lazily replaced by a fresh map on the next creation). -/
def Cancel (t : Timeline) : Timeline :=
  { t with
    cancelledIds := t.deadlines.map (fun kd => kd.2.id) ++ t.cancelledIds,
    deadlines := [] }

/-- Models `Timeline.nextCleanupTime`: the previous due instant advanced
by 100 resolutions. -/
def nextCleanupTime (t : Timeline) (lastCleanupTime : Int) : Int :=
  lastCleanupTime + 100 * t.resolution

/-- Models the throttled cleanup attempt of `Timeline.Context` (lines
121-127): `loadCleanupTime` is `time.Unix(0, cleanupTime)`, which is never
the zero `time.Time` for any `int64` field value, so the trigger condition
is exactly `cleanupTime < now` (`Before` is strict). The single sequential
caller always wins the `tryLockCleanup` compare-and-swap, republishes
`nextCleanupTime` of the loaded value, and scans. -/
def maybeSweep (t : Timeline) (now : Int) : Timeline :=
  if t.cleanupTime < now then
    cleanup { t with cleanupTime := t.nextCleanupTime t.cleanupTime } now
  else t

/-- Models `Timeline.Context (at, now)` with the jitter draw `j` made
explicit. Fast path: lookup under the read lock, returning on a hit before
any cleanup attempt. Slow path: create the bucket context with deadline
`k + j` (the expiration `time.Unix(0, k)` advanced by `jitter(r)`), insert
it, then attempt the throttled cleanup sweep. `rand.Int63n` (inside
`jitter`) panics when its bound `r` is not positive, modelled as `none`. -/
def Context (t : Timeline) (atNs now j : Int) : Option (Timeline × DeadlineCtx) :=
  let r := t.resolution
  let k := bucketKey r atNs
  match lookupDeadline t.deadlines k with
  | some d => some (t, d)
  | none =>
      if r ≤ 0 then none
      else
        let d : DeadlineCtx := ⟨t.nextId, k + j⟩
        let t1 : Timeline :=
          { t with deadlines := (k, d) :: t.deadlines, nextId := t.nextId + 1 }
        some (maybeSweep t1 now, d)

/-- Models `Timeline.Timeout`: a context expiring `timeout` after `now`. -/
def Timeout (t : Timeline) (timeout now j : Int) : Option (Timeline × DeadlineCtx) :=
  t.Context (now + timeout) now j

/-- Models `Timeline.Deadline`: a context expiring at the given instant. -/
def Deadline (t : Timeline) (d now j : Int) : Option (Timeline × DeadlineCtx) :=
  t.Context d now j

/-- A call `Context (atNs, now)` on state `t` starts a cleanup sweep: it
misses the cache (the sweep is only attempted on the slow path) and the
published next-sweep-due instant is before `now`. -/
def sweeps (t : Timeline) (atNs now : Int) : Prop :=
  lookupDeadline t.deadlines (bucketKey t.resolution atNs) = none ∧ t.cleanupTime < now

instance (t : Timeline) (atNs now : Int) : Decidable (t.sweeps atNs now) :=
  inferInstanceAs (Decidable (And _ _))

/-- Run a sequence of `Context` calls, each given as `(atNs, now, j)`. -/
def run (t : Timeline) : List (Int × Int × Int) → Option Timeline
  | [] => some t
  | c :: cs =>
      match t.Context c.1 c.2.1 c.2.2 with
      | none => none
      | some (t1, _) => run t1 cs

/-- Basic well-formedness of a timeline state, maintained by every
operation: context identities stored in the bucket map are pairwise
distinct, and every identity ever produced (live or cancelled) is below
the `nextId` counter. -/
def Inv (t : Timeline) : Prop :=
  (t.deadlines.map (fun kd => kd.2.id)).Nodup ∧
  (∀ kd ∈ t.deadlines, kd.2.id < t.nextId) ∧
  (∀ i ∈ t.cancelledIds, i < t.nextId)

/-- Every bucket entry's context deadline lies in the entry's resolution
window `[key, key + resolution)`: the jittered expiration of the window
ending at the key. Established at creation and maintained by every
operation. -/
def DeadlineInv (t : Timeline) : Prop :=
  ∀ kd ∈ t.deadlines, kd.1 ≤ kd.2.deadline ∧ kd.2.deadline < kd.1 + t.resolution

end Timeline

namespace Aux

/-- The bucket-map insertion performed on the slow path of
`Timeline.Context`, before the cleanup attempt: the state against which
the slow path's result is described in the lemmas below. -/
def insertState (t : Timeline) (a j : Int) : Timeline :=
  { t with
    deadlines :=
      (bucketKey t.resolution a, ⟨t.nextId, bucketKey t.resolution a + j⟩) :: t.deadlines,
    nextId := t.nextId + 1 }

end Aux

namespace Race

/-!
Model of N goroutines concurrently calling `Timeline.Context` for target
instants in one common bucket that is not yet cached (claim C8). Each
goroutine executes the protocol of lines 99-119: a lookup under the shared
lock (fast path), then — on a miss — a re-check under the exclusive lock
followed by creation only if the key is still absent. Each lock-protected
section touches the shared state once and is atomic under the Go memory
model, so a concurrent execution is an arbitrary interleaving of these
atomic sections, chosen here by a schedule (a list of thread indices).
Only the contested key matters, so the map is narrowed to that key's slot;
`created` is the injected creation counter of the spec's test. -/

/-- Where one goroutine stands in the lookup-or-create protocol. -/
inductive Phase where
  | reading : Phase
  | locked : Phase
  | finished : DeadlineCtx → Phase
deriving DecidableEq, Repr

/-- Shared state plus per-thread control state. `slot` is the bucket map
restricted to the contested key; `created` counts calls to
`makeDeadline`. -/
structure RaceState where
  slot : Option DeadlineCtx
  nextId : Nat
  created : Nat
  threads : List Phase
deriving DecidableEq, Repr

/-- One atomic section of thread `i`. `reading`: the fast-path lookup
under `mutex.RLock` — a hit returns its entry, a miss proceeds to the
exclusive section. `locked`: under `mutex.Lock`, re-check the map and only
create (bumping the creation counter) if the key is still absent. A
finished thread or an out-of-range index leaves the state unchanged. -/
def step (k j : Int) (s : RaceState) (i : Nat) : RaceState :=
  match s.threads.get? i with
  | none => s
  | some Phase.reading =>
      match s.slot with
      | some d => { s with threads := s.threads.set i (Phase.finished d) }
      | none => { s with threads := s.threads.set i Phase.locked }
  | some Phase.locked =>
      match s.slot with
      | some d => { s with threads := s.threads.set i (Phase.finished d) }
      | none =>
          let d : DeadlineCtx := ⟨s.nextId, k + j⟩
          { s with slot := some d, nextId := s.nextId + 1, created := s.created + 1,
                   threads := s.threads.set i (Phase.finished d) }
  | some (Phase.finished _) => s

/-- Run the interleaving given by a schedule of thread indices. -/
def runSched (k j : Int) : RaceState → List Nat → RaceState
  | s, [] => s
  | s, i :: is => runSched k j (step k j s i) is

/-- The final state of `n` goroutines racing on a fresh bucket under an
arbitrary schedule. -/
def finalState (k j : Int) (n : Nat) (sched : List Nat) : RaceState :=
  runSched k j ⟨none, 0, 0, List.replicate n Phase.reading⟩ sched

/-- Whether a thread has returned from `Context`. -/
def isFinished : Phase → Bool
  | Phase.finished _ => true
  | _ => false

/-- Inductive invariant of the race: either nothing has been created yet
(the slot is empty and no thread has returned), or exactly one context has
been created, it sits in the slot, and every thread that has returned got
exactly that context. -/
def WF (s : RaceState) : Prop :=
  (s.created = 0 ∧ s.slot = none ∧ ∀ p ∈ s.threads, isFinished p = false) ∨
  (s.created = 1 ∧ ∃ d, s.slot = some d ∧
    ∀ p ∈ s.threads, ∀ d', p = Phase.finished d' → d' = d)

end Race

namespace Aux

/-- Two multiples of a positive `r` within `r` of each other are ordered:
if `A < B + r` then `A ≤ B`. -/
theorem dvd_le_of_lt_add {r A B : Int} (hr : 0 < r) (hA : r ∣ A) (hB : r ∣ B)
    (h : A < B + r) : A ≤ B := by
  obtain ⟨u, rfl⟩ := hA
  obtain ⟨v, rfl⟩ := hB
  have h1 : r * u < r * (v + 1) := by ring_nf; ring_nf at h; linarith
  have h2 : u < v + 1 := lt_of_mul_lt_mul_left h1 hr.le
  exact mul_le_mul_of_nonneg_left (by omega) hr.le

theorem ceilKey_eq_add_emod (r k : Int) : ceilKey r k = k + (-k) % r := by
  rw [ceilKey, Int.emod_def]
  ring

theorem ceilKey_dvd (r k : Int) : r ∣ ceilKey r k :=
  dvd_mul_right r _

theorem le_ceilKey {r : Int} (k : Int) (hr : 0 < r) : k ≤ ceilKey r k := by
  rw [ceilKey_eq_add_emod]
  have := Int.emod_nonneg (-k) (ne_of_gt hr)
  omega

theorem ceilKey_lt {r : Int} (k : Int) (hr : 0 < r) : ceilKey r k < k + r := by
  rw [ceilKey_eq_add_emod]
  have := Int.emod_lt_of_pos (-k) hr
  omega

/-- `ceilKey r k` is the smallest multiple of `r` that is `≥ k`, matching
the spec's description of the bucket key. -/
theorem ceilKey_spec {r : Int} (k : Int) (hr : 0 < r) :
    r ∣ ceilKey r k ∧ k ≤ ceilKey r k ∧ ∀ m, r ∣ m → k ≤ m → ceilKey r k ≤ m := by
  refine ⟨ceilKey_dvd r k, le_ceilKey k hr, fun m hm hkm => ?_⟩
  exact dvd_le_of_lt_add hr (ceilKey_dvd r k) hm
    (lt_of_lt_of_le (ceilKey_lt k hr) (by omega))

theorem ceilKey_of_dvd {r k : Int} (h : r ∣ k) : ceilKey r k = k := by
  rw [ceilKey_eq_add_emod, Int.emod_eq_zero_of_dvd ((dvd_neg).mpr h)]
  omega

theorem bucketKey_of_dvd {r k : Int} (h : r ∣ k) : bucketKey r k = k := by
  rw [bucketKey, Int.tmod_eq_zero_of_dvd h]
  simp

theorem bucketKey_dvd (r k : Int) : r ∣ bucketKey r k := by
  rw [bucketKey]
  split
  · exact dvd_mul_left r _
  · rename_i h
    have h0 : Int.tmod k r = 0 := not_not.mp h
    have h1 := Int.tmod_add_tdiv k r
    exact ⟨Int.tdiv k r, by linarith⟩

theorem le_bucketKey {r k : Int} (hr : 0 < r) (hk : 0 ≤ k) : k ≤ bucketKey r k := by
  rw [bucketKey, Int.tmod_eq_emod hk hr.le, Int.tdiv_eq_ediv hk hr.le]
  have h1 := Int.ediv_add_emod k r
  have h2 := Int.emod_lt_of_pos k hr
  have h3 : (k / r + 1) * r = r * (k / r) + r := by ring
  split
  · linarith
  · exact le_refl k

theorem bucketKey_lt {r k : Int} (hr : 0 < r) (hk : 0 ≤ k) : bucketKey r k < k + r := by
  rw [bucketKey, Int.tmod_eq_emod hk hr.le, Int.tdiv_eq_ediv hk hr.le]
  have h1 := Int.ediv_add_emod k r
  have h2 := Int.emod_nonneg k (ne_of_gt hr)
  have h3 : (k / r + 1) * r = r * (k / r) + r := by ring
  split
  · rename_i h
    have h4 : 0 < k % r := lt_of_le_of_ne h2 (Ne.symm h)
    linarith
  · linarith

/-- For non-negative timestamps the Go rounding agrees with the spec's
ceiling. -/
theorem bucketKey_eq_ceilKey {r k : Int} (hr : 0 < r) (hk : 0 ≤ k) :
    bucketKey r k = ceilKey r k := by
  apply le_antisymm
  · exact dvd_le_of_lt_add hr (bucketKey_dvd r k) (ceilKey_dvd r k)
      (lt_of_lt_of_le (bucketKey_lt hr hk) (by have := le_ceilKey k hr; omega))
  · exact dvd_le_of_lt_add hr (ceilKey_dvd r k) (bucketKey_dvd r k)
      (lt_of_lt_of_le (ceilKey_lt k hr) (by have := le_bucketKey hr hk; omega))

/-- For negative timestamps that are not exact multiples, Go's truncated
division rounds toward zero, so the computed key overshoots the ceiling by
exactly one resolution. -/
theorem bucketKey_of_neg {r k : Int} (hr : 0 < r) (hk : k < 0) (hnd : ¬ r ∣ k) :
    bucketKey r k = ceilKey r k + r := by
  have hm : Int.tmod k r ≠ 0 := by
    intro h0
    have h1 := Int.tmod_add_tdiv k r
    exact hnd ⟨Int.tdiv k r, by linarith⟩
  rw [bucketKey, if_pos hm]
  have h2 : Int.tdiv k r = -((-k) / r) := by
    have h3 := Int.neg_tdiv (-k) r
    rw [Int.neg_neg] at h3
    rw [h3, Int.tdiv_eq_ediv (by omega : (0:Int) ≤ -k) hr.le]
  rw [h2, ceilKey]
  ring

theorem bucketKey_mono {r a b : Int} (hr : 0 < r) (ha : 0 ≤ a) (hab : a ≤ b) :
    bucketKey r a ≤ bucketKey r b := by
  apply dvd_le_of_lt_add hr (bucketKey_dvd r a) (bucketKey_dvd r b)
  have h1 := bucketKey_lt hr ha
  have h2 := le_bucketKey hr (ha.trans hab)
  omega

theorem lookupDeadline_mem : ∀ {l : List (Int × DeadlineCtx)} {k : Int} {d : DeadlineCtx},
    lookupDeadline l k = some d → (k, d) ∈ l
  | [], _, _, h => by simp [lookupDeadline] at h
  | (k0, d0) :: rest, k, d, h => by
      rw [lookupDeadline] at h
      split at h
      · rename_i heq
        injection h with h
        subst h
        subst heq
        exact List.mem_cons_self _ _
      · exact List.mem_cons_of_mem _ (lookupDeadline_mem h)

theorem lookupDeadline_cons_self (k : Int) (d : DeadlineCtx) (l : List (Int × DeadlineCtx)) :
    lookupDeadline ((k, d) :: l) k = some d := by
  rw [lookupDeadline, if_pos rfl]

theorem cleanup_deadlines_sublist (t : Timeline) (now : Int) :
    (t.cleanup now).deadlines.Sublist t.deadlines :=
  List.filter_sublist _

theorem maybeSweep_Resolution (t : Timeline) (now : Int) :
    (t.maybeSweep now).Resolution = t.Resolution := by
  unfold Timeline.maybeSweep
  split <;> rfl

theorem maybeSweep_nextId (t : Timeline) (now : Int) :
    (t.maybeSweep now).nextId = t.nextId := by
  unfold Timeline.maybeSweep
  split <;> rfl

theorem maybeSweep_deadlines_sublist (t : Timeline) (now : Int) :
    (t.maybeSweep now).deadlines.Sublist t.deadlines := by
  unfold Timeline.maybeSweep
  split
  · exact cleanup_deadlines_sublist _ _
  · exact List.Sublist.refl _

theorem resolution_congr {t s : Timeline} (h : t.Resolution = s.Resolution) :
    t.resolution = s.resolution := by
  unfold Timeline.resolution
  rw [h]

/-- Case analysis on a successful `Context` call: either a fast-path hit
returning the stored entry with the state unchanged, or a slow-path
creation followed by the cleanup attempt. -/
theorem context_some_cases {t t' : Timeline} {a now j : Int} {d : DeadlineCtx}
    (h : t.Context a now j = some (t', d)) :
    (lookupDeadline t.deadlines (bucketKey t.resolution a) = some d ∧ t' = t) ∨
    (lookupDeadline t.deadlines (bucketKey t.resolution a) = none ∧ 0 < t.resolution ∧
      d = ⟨t.nextId, bucketKey t.resolution a + j⟩ ∧
      t' = (insertState t a j).maybeSweep now) := by
  simp only [Timeline.Context] at h
  cases hl : lookupDeadline t.deadlines (bucketKey t.resolution a) with
  | some d0 =>
      rw [hl] at h
      simp only [Option.some.injEq, Prod.mk.injEq] at h
      left
      exact ⟨by rw [h.2], h.1.symm⟩
  | none =>
      rw [hl] at h
      by_cases hr : t.resolution ≤ 0
      · rw [if_pos hr] at h
        exact absurd h (by simp)
      · rw [if_neg hr] at h
        simp only [Option.some.injEq, Prod.mk.injEq] at h
        right
        refine ⟨rfl, not_le.mp hr, h.2.symm, ?_⟩
        rw [← h.1]
        rfl

theorem context_hit {t : Timeline} {a now j : Int} {d : DeadlineCtx}
    (h : lookupDeadline t.deadlines (bucketKey t.resolution a) = some d) :
    t.Context a now j = some (t, d) := by
  simp only [Timeline.Context, h]

theorem context_Resolution {t t' : Timeline} {a now j : Int} {d : DeadlineCtx}
    (h : t.Context a now j = some (t', d)) : t'.Resolution = t.Resolution := by
  rcases context_some_cases h with ⟨_, rfl⟩ | ⟨_, _, _, rfl⟩
  · rfl
  · rw [maybeSweep_Resolution]
    rfl

theorem cleanup_Inv {t : Timeline} (hInv : t.Inv) (now : Int) : (t.cleanup now).Inv := by
  obtain ⟨hnodup, hlt, hc⟩ := hInv
  refine ⟨?_, ?_, ?_⟩
  · exact List.Nodup.sublist (List.Sublist.map _ (List.filter_sublist _)) hnodup
  · intro kd hkd
    exact hlt kd ((List.filter_sublist _).subset hkd)
  · intro i hi
    rcases List.mem_append.mp hi with hi | hi
    · obtain ⟨kd, hkd, rfl⟩ := List.mem_map.mp hi
      exact hlt kd ((List.filter_sublist _).subset hkd)
    · exact hc i hi

theorem maybeSweep_Inv {t : Timeline} (hInv : t.Inv) (now : Int) : (t.maybeSweep now).Inv := by
  unfold Timeline.maybeSweep
  split
  · exact cleanup_Inv hInv now
  · exact hInv

theorem insertState_Inv {t : Timeline} (hInv : t.Inv) (a j : Int) : (insertState t a j).Inv := by
  obtain ⟨hnodup, hlt, hc⟩ := hInv
  refine ⟨?_, ?_, ?_⟩
  · refine List.nodup_cons.mpr ⟨?_, hnodup⟩
    intro hmem
    simp only [List.mem_map] at hmem
    obtain ⟨kd, hkd, hid⟩ := hmem
    have := hlt kd hkd
    omega
  · intro kd hkd
    rcases List.mem_cons.mp hkd with rfl | hkd
    · exact Nat.lt_succ_self _
    · exact Nat.lt_succ_of_lt (hlt kd hkd)
  · intro i hi
    exact Nat.lt_succ_of_lt (hc i hi)

theorem context_Inv {t t' : Timeline} {a now j : Int} {d : DeadlineCtx}
    (hInv : t.Inv) (h : t.Context a now j = some (t', d)) : t'.Inv := by
  rcases context_some_cases h with ⟨_, rfl⟩ | ⟨_, _, _, rfl⟩
  · exact hInv
  · exact maybeSweep_Inv (insertState_Inv hInv a j) now

theorem cancel_Inv {t : Timeline} (hInv : t.Inv) : t.Cancel.Inv := by
  obtain ⟨hnodup, hlt, hc⟩ := hInv
  refine ⟨List.nodup_nil, fun kd hkd => absurd hkd (List.not_mem_nil kd), ?_⟩
  intro i hi
  rcases List.mem_append.mp hi with hi | hi
  · obtain ⟨kd, hkd, rfl⟩ := List.mem_map.mp hi
    exact hlt kd hkd
  · exact hc i hi

theorem cleanup_DeadlineInv {t : Timeline} (hDI : t.DeadlineInv) (now : Int) :
    (t.cleanup now).DeadlineInv := by
  intro kd hkd
  exact hDI kd ((List.filter_sublist _).subset hkd)

theorem maybeSweep_DeadlineInv {t : Timeline} (hDI : t.DeadlineInv) (now : Int) :
    (t.maybeSweep now).DeadlineInv := by
  unfold Timeline.maybeSweep
  split
  · exact cleanup_DeadlineInv hDI now
  · exact hDI

theorem context_DeadlineInv {t t' : Timeline} {a now j : Int} {d : DeadlineCtx}
    (hDI : t.DeadlineInv) (hj0 : 0 ≤ j) (hjr : j < t.resolution)
    (h : t.Context a now j = some (t', d)) : t'.DeadlineInv := by
  rcases context_some_cases h with ⟨_, rfl⟩ | ⟨_, _, _, rfl⟩
  · exact hDI
  · apply maybeSweep_DeadlineInv
    intro kd hkd
    rcases List.mem_cons.mp hkd with rfl | hkd
    · refine ⟨?_, ?_⟩
      · show bucketKey t.resolution a ≤ bucketKey t.resolution a + j
        omega
      · show bucketKey t.resolution a + j <
          bucketKey t.resolution a + (insertState t a j).resolution
        have hres : (insertState t a j).resolution = t.resolution := rfl
        omega
    · exact hDI kd hkd

theorem cancel_DeadlineInv (t : Timeline) : t.Cancel.DeadlineInv := by
  intro kd hkd
  exact absurd hkd (List.not_mem_nil kd)

theorem cleanup_lookup_head {t : Timeline} {now k : Int} {d : DeadlineCtx}
    {rest : List (Int × DeadlineCtx)}
    (hdl : t.deadlines = (k, d) :: rest)
    (hkeep : ¬ (d.deadline + t.resolution < now)) :
    lookupDeadline (t.cleanup now).deadlines k = some d := by
  show lookupDeadline
    (t.deadlines.filter (fun kd => !(decide (kd.2.deadline + t.resolution < now)))) k = some d
  rw [hdl, List.filter_cons_of_pos (by simpa using hkeep)]
  exact lookupDeadline_cons_self _ _ _

/-- After a successful `Context` call whose clock has not advanced past
the returned entry's deadline plus one resolution (its grace window), the
returned entry is present in the resulting map at the requested key. -/
theorem context_returns_member {t t' : Timeline} {a now j : Int} {d : DeadlineCtx}
    (hlive : now ≤ d.deadline + t.resolution)
    (h : t.Context a now j = some (t', d)) :
    lookupDeadline t'.deadlines (bucketKey t.resolution a) = some d := by
  rcases context_some_cases h with ⟨hl, ht⟩ | ⟨hl, hrpos, hd, ht⟩
  · subst ht
    exact hl
  · subst hd ht
    unfold Timeline.maybeSweep
    split
    · apply cleanup_lookup_head rfl
      have h5 : now ≤ bucketKey t.resolution a + j + t.resolution := hlive
      show ¬ (bucketKey t.resolution a + j + t.resolution < now)
      omega
    · exact lookupDeadline_cons_self _ _ _

theorem cleanup_cancelledIds_mem (t : Timeline) (now : Int) (i : Nat) :
    i ∈ (t.cleanup now).cancelledIds ↔
      (∃ kd ∈ t.deadlines, kd.2.id = i ∧ kd.2.deadline + t.resolution < now) ∨
      i ∈ t.cancelledIds := by
  show i ∈ (t.deadlines.filter
      (fun kd => decide (kd.2.deadline + t.resolution < now))).map (fun kd => kd.2.id)
      ++ t.cancelledIds ↔ _
  rw [List.mem_append]
  constructor
  · rintro (hmap | hold)
    · obtain ⟨kd, hkd, rfl⟩ := List.mem_map.mp hmap
      obtain ⟨hmem, hp⟩ := List.mem_filter.mp hkd
      exact Or.inl ⟨kd, hmem, rfl, by simpa using hp⟩
    · exact Or.inr hold
  · rintro (⟨kd, hmem, rfl, hlate⟩ | hold)
    · exact Or.inl
        (List.mem_map.mpr ⟨kd, List.mem_filter.mpr ⟨hmem, by simpa using hlate⟩, rfl⟩)
    · exact Or.inr hold

theorem maybeSweep_cancelledIds_mem (t : Timeline) (now : Int) (i : Nat) :
    i ∈ (t.maybeSweep now).cancelledIds ↔
      ((t.cleanupTime < now ∧
        ∃ kd ∈ t.deadlines, kd.2.id = i ∧ kd.2.deadline + t.resolution < now) ∨
      i ∈ t.cancelledIds) := by
  unfold Timeline.maybeSweep
  split
  · rename_i hlt
    constructor
    · intro h
      rcases (cleanup_cancelledIds_mem _ now i).mp h with h | h
      · exact Or.inl ⟨hlt, h⟩
      · exact Or.inr h
    · rintro (⟨_, h⟩ | h)
      · exact (cleanup_cancelledIds_mem _ now i).mpr (Or.inl h)
      · exact (cleanup_cancelledIds_mem _ now i).mpr (Or.inr h)
  · rename_i hge
    constructor
    · exact fun h => Or.inr h
    · rintro (⟨hlt, _⟩ | h)
      · exact absurd hlt hge
      · exact h

theorem context_cleanupTime_mono {t t' : Timeline} {a now j : Int} {d : DeadlineCtx}
    (hr : 0 < t.resolution) (h : t.Context a now j = some (t', d)) :
    t.cleanupTime ≤ t'.cleanupTime := by
  rcases context_some_cases h with ⟨_, ht⟩ | ⟨_, _, _, ht⟩
  · subst ht
    exact le_refl _
  · subst ht
    unfold Timeline.maybeSweep
    split
    · show t.cleanupTime ≤ t.cleanupTime + 100 * t.resolution
      omega
    · exact le_refl _

theorem run_cleanupTime_mono :
    ∀ {cs : List (Int × Int × Int)} {t t' : Timeline}, 0 < t.resolution →
      t.run cs = some t' → t.cleanupTime ≤ t'.cleanupTime ∧ t'.resolution = t.resolution
  | [], t, t', _, h => by
      rw [Timeline.run] at h
      injection h with h
      subst h
      exact ⟨le_refl _, rfl⟩
  | c :: cs, t, t', hr, h => by
      rw [Timeline.run] at h
      cases hc : t.Context c.1 c.2.1 c.2.2 with
      | none =>
          rw [hc] at h
          cases h
      | some p =>
          rw [hc] at h
          obtain ⟨p1, p2⟩ := p
          have hres : p1.resolution = t.resolution := resolution_congr (context_Resolution hc)
          have h1 := context_cleanupTime_mono hr hc
          have ih := run_cleanupTime_mono (hres ▸ hr) h
          exact ⟨le_trans h1 ih.1, by rw [ih.2, hres]⟩

/-- A call that sweeps republishes the next-due instant as the loaded due
instant plus 100 resolutions. -/
theorem sweeps_cleanupTime {t t' : Timeline} {a now j : Int} {d : DeadlineCtx}
    (hs : t.sweeps a now) (h : t.Context a now j = some (t', d)) :
    t'.cleanupTime = t.cleanupTime + 100 * t.resolution := by
  rcases context_some_cases h with ⟨hl, _⟩ | ⟨_, _, _, ht⟩
  · rw [hs.1] at hl
    cases hl
  · subst ht
    unfold Timeline.maybeSweep
    rw [if_pos (show (Aux.insertState t a j).cleanupTime < now from hs.2)]
    rfl

end Aux

namespace Race

theorem step_threads_length (k j : Int) (s : RaceState) (i : Nat) :
    (step k j s i).threads.length = s.threads.length := by
  unfold step
  split
  · rfl
  · split <;> simp [List.length_set]
  · split <;> simp [List.length_set]
  · rfl

theorem runSched_threads_length (k j : Int) :
    ∀ (sched : List Nat) (s : RaceState),
      (runSched k j s sched).threads.length = s.threads.length
  | [], _ => rfl
  | i :: is, s => by
      rw [runSched, runSched_threads_length k j is, step_threads_length]

theorem step_WF (k j : Int) (s : RaceState) (i : Nat) (h : WF s) : WF (step k j s i) := by
  unfold step
  split
  · exact h
  · split
    · rename_i hslot
      rcases h with ⟨_, hnone, _⟩ | ⟨h1, d0, hslot0, hall⟩
      · rw [hnone] at hslot
        exact absurd hslot (by simp)
      · right
        refine ⟨h1, d0, hslot0, ?_⟩
        intro p hp d1 hp1
        rcases List.mem_or_eq_of_mem_set hp with hp | rfl
        · exact hall p hp d1 hp1
        · injection hp1 with h2
          rw [hslot0] at hslot
          injection hslot with h3
          rw [← h2, h3]
    · rename_i hslot
      rcases h with ⟨h0, hnone, hnf⟩ | ⟨_, d0, hslot0, _⟩
      · left
        refine ⟨h0, hnone, ?_⟩
        intro p hp
        rcases List.mem_or_eq_of_mem_set hp with hp | rfl
        · exact hnf p hp
        · rfl
      · rw [hslot0] at hslot
        exact absurd hslot (by simp)
  · split
    · rename_i hslot
      rcases h with ⟨_, hnone, _⟩ | ⟨h1, d0, hslot0, hall⟩
      · rw [hnone] at hslot
        exact absurd hslot (by simp)
      · right
        refine ⟨h1, d0, hslot0, ?_⟩
        intro p hp d1 hp1
        rcases List.mem_or_eq_of_mem_set hp with hp | rfl
        · exact hall p hp d1 hp1
        · injection hp1 with h2
          rw [hslot0] at hslot
          injection hslot with h3
          rw [← h2, h3]
    · rename_i hslot
      rcases h with ⟨h0, _, hnf⟩ | ⟨_, d0, hslot0, _⟩
      · right
        refine ⟨by rw [h0], ⟨s.nextId, k + j⟩, rfl, ?_⟩
        intro p hp d1 hp1
        rcases List.mem_or_eq_of_mem_set hp with hp | rfl
        · rw [hp1] at hp
          exact absurd (hnf _ hp) (by simp [isFinished])
        · injection hp1 with h2
          exact h2.symm
      · rw [hslot0] at hslot
        exact absurd hslot (by simp)
  · exact h

theorem runSched_WF (k j : Int) :
    ∀ (sched : List Nat) (s : RaceState), WF s → WF (runSched k j s sched)
  | [], _, h => h
  | i :: is, s, h => by
      rw [runSched]
      exact runSched_WF k j is _ (step_WF k j s i h)

theorem finalState_WF (k j : Int) (n : Nat) (sched : List Nat) :
    WF (finalState k j n sched) := by
  apply runSched_WF
  left
  refine ⟨rfl, rfl, ?_⟩
  intro p hp
  rw [List.eq_of_mem_replicate hp]
  rfl

end Race

/-- C8: at most one bucket entry exists per key: when `n` goroutines race
to create the same not-yet-cached bucket, then under every interleaving of
their lock-protected sections in which all of them have returned, the
double-checked creation has run `makeDeadline` exactly once (the injected
creation counter reads 1), the single created context is the map entry,
and all `n` callers received exactly that context. -/
theorem C8_creation_deduplicated (k j : Int) (n : Nat) (sched : List Nat) (hn : 0 < n)
    (hfin : ∀ p ∈ (Race.finalState k j n sched).threads, Race.isFinished p = true) :
    (Race.finalState k j n sched).created = 1 ∧
    ∃ d, (Race.finalState k j n sched).slot = some d ∧
      ∀ p ∈ (Race.finalState k j n sched).threads, p = Race.Phase.finished d := by
  have hWF := Race.finalState_WF k j n sched
  have hlen : (Race.finalState k j n sched).threads.length = n := by
    unfold Race.finalState
    rw [Race.runSched_threads_length]
    exact List.length_replicate n _
  rcases hWF with ⟨_, _, hnf⟩ | ⟨h1, d, hslot, hall⟩
  · obtain ⟨p, hp⟩ := List.exists_mem_of_ne_nil _ (List.ne_nil_of_length_pos (hlen ▸ hn))
    have h1 := hnf p hp
    have h2 := hfin p hp
    rw [h1] at h2
    exact absurd h2 (by simp)
  · refine ⟨h1, d, hslot, ?_⟩
    intro p hp
    cases hp0 : p with
    | finished d1 =>
        rw [hall p hp d1 hp0]
    | reading =>
        rw [hp0] at hp
        exact absurd (hfin _ hp) (by simp [Race.isFinished])
    | locked =>
        rw [hp0] at hp
        exact absurd (hfin _ hp) (by simp [Race.isFinished])

/-- Witness for C8 at a concrete run: two goroutines, where the first
loses the fast path, creates under the exclusive lock, and the second then
hits the populated slot. -/
theorem C8_witness :
    0 < 2 ∧ (∀ p ∈ (Race.finalState 0 0 2 [0, 0, 1]).threads, Race.isFinished p = true) ∧
      ((Race.finalState 0 0 2 [0, 0, 1]).created = 1 ∧
        ∃ d, (Race.finalState 0 0 2 [0, 0, 1]).slot = some d ∧
          ∀ p ∈ (Race.finalState 0 0 2 [0, 0, 1]).threads, p = Race.Phase.finished d) :=
  ⟨by decide, by decide, C8_creation_deduplicated 0 0 2 [0, 0, 1] (by decide) (by decide)⟩

/-- C4 counterexample: for the pre-epoch instant -5ns at resolution 10ns,
the code computes key 10 (Go's `int64` division truncates toward zero, so
`k/r + 1` overshoots for negative non-multiples), while the ceiling — the
smallest multiple of 10 greater than or equal to -5 — is 0. -/
theorem C4_counterexample :
    bucketKey 10 (-5) = 10 ∧ ceilKey 10 (-5) = 0 ∧ bucketKey 10 (-5) ≠ ceilKey 10 (-5) := by
  decide

/-- C4 (amended): for a positive resolution the bucket key equals the
ceiling of the timestamp to the nearest multiple of the resolution for
every non-negative timestamp and for every exact multiple, but for
negative timestamps that are not exact multiples it equals the ceiling
plus one extra resolution. -/
theorem C4_bucketKey_vs_ceiling (r k : Int) (hr : 0 < r) :
    ((0 ≤ k ∨ r ∣ k) → bucketKey r k = ceilKey r k) ∧
    (k < 0 → ¬ r ∣ k → bucketKey r k = ceilKey r k + r) := by
  constructor
  · rintro (hk | hk)
    · exact Aux.bucketKey_eq_ceilKey hr hk
    · rw [Aux.bucketKey_of_dvd hk, Aux.ceilKey_of_dvd hk]
  · intro hk hnd
    exact Aux.bucketKey_of_neg hr hk hnd

/-- Witness for C4 (amended) at resolution 10 and timestamp 25. -/
theorem C4_witness :
    0 < (10:Int) ∧
      ((((0:Int) ≤ 25 ∨ (10:Int) ∣ 25) → bucketKey 10 25 = ceilKey 10 25) ∧
        ((25:Int) < 0 → ¬ (10:Int) ∣ 25 → bucketKey 10 25 = ceilKey 10 25 + 10)) :=
  ⟨by decide, C4_bucketKey_vs_ceiling 10 25 (by decide)⟩

/-- C5 counterexample: the key function is not monotone over negative
instants: -11 ≤ -10 but the key of -11 (namely 0) exceeds the key of -10
(namely -10) at resolution 10. -/
theorem C5_counterexample :
    (-11 : Int) ≤ -10 ∧ bucketKey 10 (-11) = 0 ∧ bucketKey 10 (-10) = -10 ∧
      bucketKey 10 (-10) < bucketKey 10 (-11) := by
  decide

/-- C5 (amended): the bucket-key function is monotone on non-negative
instants: for `0 ≤ a ≤ b` and positive resolution, the key of `a` is at
most the key of `b`. (Monotonicity fails for negative instants, see the
counterexample.) -/
theorem C5_bucketKey_mono (r a b : Int) (hr : 0 < r) (ha : 0 ≤ a) (hab : a ≤ b) :
    bucketKey r a ≤ bucketKey r b :=
  Aux.bucketKey_mono hr ha hab

/-- Witness for C5 (amended) at resolution 10 with 7 ≤ 23. -/
theorem C5_witness :
    0 < (10:Int) ∧ (0:Int) ≤ 7 ∧ (7:Int) ≤ 23 ∧ bucketKey 10 7 ≤ bucketKey 10 23 :=
  ⟨by decide, by decide, by decide,
   C5_bucketKey_mono 10 7 23 (by decide) (by decide) (by decide)⟩

/-- C9: a negative `Resolution` is returned unchanged by `resolution()`
(only zero falls back to the 100ms default), and a `Context` call that
misses the cache then reaches `jitter`, whose `rand.Int63n` receives the
non-positive bound and panics (modelled by `Context` returning `none`). -/
theorem C9_negative_resolution_panics (t : Timeline) (a now j : Int)
    (hneg : t.Resolution < 0)
    (hmiss : lookupDeadline t.deadlines (bucketKey t.resolution a) = none) :
    t.resolution = t.Resolution ∧ t.Context a now j = none := by
  have hres : t.resolution = t.Resolution := by
    unfold Timeline.resolution
    rw [if_pos (by omega : t.Resolution ≠ 0)]
  refine ⟨hres, ?_⟩
  simp only [Timeline.Context, hmiss]
  rw [if_pos (le_of_lt (by rw [hres]; exact hneg))]

/-- Witness for C9 on a fresh timeline configured with resolution -5. -/
theorem C9_witness :
    ({ Resolution := -5 } : Timeline).Resolution < 0 ∧
      lookupDeadline ({ Resolution := -5 } : Timeline).deadlines
        (bucketKey ({ Resolution := -5 } : Timeline).resolution 0) = none ∧
      (({ Resolution := -5 } : Timeline).resolution = ({ Resolution := -5 } : Timeline).Resolution ∧
        ({ Resolution := -5 } : Timeline).Context 0 0 0 = none) :=
  ⟨by decide, by decide, C9_negative_resolution_panics _ 0 0 0 (by decide) (by decide)⟩

/-- C10: `Cancel` on a timeline whose bucket map is empty cancels nothing
and only resets the (already empty) map, and `Cancel` is idempotent on
every timeline. -/
theorem C10_cancel_empty_noop (t : Timeline) (h : t.deadlines = []) :
    t.Cancel = { t with deadlines := ([] : List (Int × DeadlineCtx)) } ∧
      t.Cancel.cancelledIds = t.cancelledIds ∧
      Timeline.Cancel (Timeline.Cancel t) = t.Cancel := by
  refine ⟨?_, ?_, ?_⟩
  · simp [Timeline.Cancel, h]
  · simp [Timeline.Cancel, h]
  · simp [Timeline.Cancel]

/-- Witness for C10 on a never-used timeline that already carries a
cancelled id. -/
theorem C10_witness :
    ({ cancelledIds := [3] } : Timeline).deadlines = [] ∧
      (({ cancelledIds := [3] } : Timeline).Cancel =
          { ({ cancelledIds := [3] } : Timeline) with
              deadlines := ([] : List (Int × DeadlineCtx)) } ∧
        ({ cancelledIds := [3] } : Timeline).Cancel.cancelledIds =
          ({ cancelledIds := [3] } : Timeline).cancelledIds ∧
        Timeline.Cancel (Timeline.Cancel ({ cancelledIds := [3] } : Timeline)) =
          ({ cancelledIds := [3] } : Timeline).Cancel) :=
  ⟨rfl, C10_cancel_empty_noop _ rfl⟩

/-- C1 counterexample: the claim "two calls in the same resolution window
return the identical context handle" fails when the cleanup sweep reclaims
the bucket between the calls. On a fresh default timeline, two calls for
the identical target instant 0 (hence the identical bucket) at clock
`now = 10^18` return contexts with distinct identities 0 and 1: the first
call's own sweep (due since the zero value's `cleanupTime` is the epoch)
cancels and removes the just created bucket, so the second call creates a
fresh context. -/
theorem C1_counterexample :
    Timeline.Context {} 0 1000000000000000000 0 =
        some ({ cleanupTime := 10000000000, nextId := 1, cancelledIds := [0] }, ⟨0, 0⟩) ∧
      Timeline.Context
          { cleanupTime := 10000000000, nextId := 1, cancelledIds := [0] }
          0 1000000000000000000 0 =
        some ({ cleanupTime := 20000000000, nextId := 2, cancelledIds := [1, 0] }, ⟨1, 0⟩) ∧
      (⟨1, 0⟩ : DeadlineCtx).id ≠ (⟨0, 0⟩ : DeadlineCtx).id := by
  decide

/-- C1 (amended): on a well-formed timeline, for two successive `Context`
calls: if both target instants quantize to the same bucket key then the
second call returns the identical entry as the first, provided the first
call's clock has not passed the returned entry's deadline plus one
resolution — its grace window — so the cleanup sweep cannot reclaim the
entry in between; and if the keys differ, the returned entries always
have distinct context identities. -/
theorem C1_window_sharing (t : Timeline) (a1 now1 j1 a2 now2 j2 : Int)
    (t1 t2 : Timeline) (d1 d2 : DeadlineCtx)
    (hInv : t.Inv)
    (h1 : t.Context a1 now1 j1 = some (t1, d1))
    (h2 : t1.Context a2 now2 j2 = some (t2, d2)) :
    (bucketKey t.resolution a2 = bucketKey t.resolution a1 →
      now1 ≤ d1.deadline + t.resolution → d2 = d1) ∧
    (bucketKey t.resolution a2 ≠ bucketKey t.resolution a1 → d2.id ≠ d1.id) := by
  have hres1 : t1.resolution = t.resolution :=
    Aux.resolution_congr (Aux.context_Resolution h1)
  constructor
  · intro hsame hlive
    have hl1 : lookupDeadline t1.deadlines (bucketKey t.resolution a1) = some d1 :=
      Aux.context_returns_member hlive h1
    have hcall2 : t1.Context a2 now2 j2 = some (t1, d1) := by
      apply Aux.context_hit
      rw [hres1, hsame]
      exact hl1
    have h3 : (some (t1, d1) : Option (Timeline × DeadlineCtx)) = some (t2, d2) :=
      hcall2.symm.trans h2
    simp only [Option.some.injEq, Prod.mk.injEq] at h3
    exact h3.2.symm
  · intro hdiff hid
    rcases Aux.context_some_cases h1 with ⟨hlA, htA⟩ | ⟨hlA, hrA, hdA, htA⟩
    · have memA := Aux.lookupDeadline_mem hlA
      rcases Aux.context_some_cases h2 with ⟨hlB, _⟩ | ⟨_, _, hdB, _⟩
      · rw [hres1, htA] at hlB
        have memB := Aux.lookupDeadline_mem hlB
        have heq := List.inj_on_of_nodup_map hInv.1 memB memA hid
        exact hdiff (congrArg Prod.fst heq)
      · have hlt : d1.id < t.nextId := hInv.2.1 _ memA
        have hh : t1.nextId = d1.id := by
          rw [hdB] at hid
          exact hid
        rw [htA] at hh
        omega
    · subst hdA htA
      rcases Aux.context_some_cases h2 with ⟨hlB, _⟩ | ⟨_, _, hdB, _⟩
      · rw [hres1] at hlB
        have memB := Aux.lookupDeadline_mem hlB
        have hsub : ((Aux.insertState t a1 j1).maybeSweep now1).deadlines.Sublist
            ((bucketKey t.resolution a1,
              (⟨t.nextId, bucketKey t.resolution a1 + j1⟩ : DeadlineCtx)) :: t.deadlines) :=
          Aux.maybeSweep_deadlines_sublist _ now1
        rcases List.mem_cons.mp (hsub.subset memB) with heq | memB2
        · exact hdiff (congrArg Prod.fst heq)
        · have hlt : d2.id < t.nextId := hInv.2.1 _ memB2
          have hh : d2.id = t.nextId := hid
          omega
      · have h4 : d2.id = t.nextId + 1 := by
          rw [hdB]
          show ((Aux.insertState t a1 j1).maybeSweep now1).nextId = t.nextId + 1
          rw [Aux.maybeSweep_nextId]
          rfl
        have h5 : d2.id = t.nextId := hid
        omega

/-- Witness for C1 (amended): two same-bucket calls at clock 0 on a fresh
default timeline share the single created context. -/
theorem C1_witness :
    Timeline.Context {} 0 0 0 =
        some ({ deadlines := [(0, ⟨0, 0⟩)], nextId := 1 }, ⟨0, 0⟩) ∧
      Timeline.Context { deadlines := [(0, ⟨0, 0⟩)], nextId := 1 } 0 0 0 =
        some ({ deadlines := [(0, ⟨0, 0⟩)], nextId := 1 }, ⟨0, 0⟩) ∧
      ((bucketKey (Timeline.resolution {}) 0 = bucketKey (Timeline.resolution {}) 0 →
          (0:Int) ≤ (⟨0, 0⟩ : DeadlineCtx).deadline + Timeline.resolution {} →
          (⟨0, 0⟩ : DeadlineCtx) = ⟨0, 0⟩) ∧
        (bucketKey (Timeline.resolution {}) 0 ≠ bucketKey (Timeline.resolution {}) 0 →
          (⟨0, 0⟩ : DeadlineCtx).id ≠ (⟨0, 0⟩ : DeadlineCtx).id)) :=
  ⟨by decide, by decide,
   C1_window_sharing {} 0 0 0 0 0 0
     { deadlines := [(0, ⟨0, 0⟩)], nextId := 1 }
     { deadlines := [(0, ⟨0, 0⟩)], nextId := 1 } ⟨0, 0⟩ ⟨0, 0⟩
     ⟨List.nodup_nil, fun kd hkd => absurd hkd (List.not_mem_nil kd),
      fun i hi => absurd hi (List.not_mem_nil i)⟩
     (by decide) (by decide)⟩

/-- C3 counterexample: the claim "no two sweeps start within the same
100-resolution window" fails after a long idle gap, because the winner
republishes next-due as previous-due (not `now`) plus 100 resolutions. On
a fresh default timeline whose due instant is the epoch, two consecutive
calls at the same clock instant `now = 10^18` both start a sweep: after
the first sweep the due instant is only 10^10, still far before `now`. -/
theorem C3_counterexample :
    Timeline.sweeps {} 0 1000000000000000000 ∧
      Timeline.Context {} 0 1000000000000000000 0 =
        some ({ cleanupTime := 10000000000, nextId := 1, cancelledIds := [0] }, ⟨0, 0⟩) ∧
      Timeline.sweeps { cleanupTime := 10000000000, nextId := 1, cancelledIds := [0] }
        0 1000000000000000000 ∧
      (1000000000000000000 - 1000000000000000000 : Int) < 100 * Timeline.resolution {} := by
  decide

/-- C3 (amended): a winning sweep republishes the next-due instant as the
loaded previous-due plus 100 resolutions, and any later sweep (after any
sequence of further calls) can only start at a clock reading strictly
beyond that republished instant. The unconditional cadence bound of the
original claim holds only once the due instant has caught up with the
clock; it fails after an idle gap (see the counterexample). -/
theorem C3_sweep_throttle (t : Timeline) (a now j : Int) (t1 : Timeline) (d : DeadlineCtx)
    (cs : List (Int × Int × Int)) (t2 : Timeline) (a2 now2 : Int)
    (hr : 0 < t.resolution) (hs : t.sweeps a now)
    (h1 : t.Context a now j = some (t1, d))
    (hrun : t1.run cs = some t2)
    (hs2 : t2.sweeps a2 now2) :
    t1.cleanupTime = t.cleanupTime + 100 * t.resolution ∧
      t.cleanupTime + 100 * t.resolution < now2 := by
  have hct := Aux.sweeps_cleanupTime hs h1
  have hres1 : t1.resolution = t.resolution := Aux.resolution_congr (Aux.context_Resolution h1)
  have hmono := (Aux.run_cleanupTime_mono (hres1 ▸ hr) hrun).1
  have hlt := hs2.2
  exact ⟨hct, by omega⟩

/-- Witness for C3 (amended): the first call on a fresh default timeline
sweeps, republishes due = 10^10, and the immediately following sweep (at
the same state) indeed starts beyond no instant earlier than that. -/
theorem C3_witness :
    0 < Timeline.resolution {} ∧ Timeline.sweeps {} 0 1000000000000000000 ∧
      Timeline.Context {} 0 1000000000000000000 0 =
        some ({ cleanupTime := 10000000000, nextId := 1, cancelledIds := [0] }, ⟨0, 0⟩) ∧
      Timeline.run { cleanupTime := 10000000000, nextId := 1, cancelledIds := [0] } [] =
        some { cleanupTime := 10000000000, nextId := 1, cancelledIds := [0] } ∧
      Timeline.sweeps { cleanupTime := 10000000000, nextId := 1, cancelledIds := [0] }
        0 1000000000000000000 ∧
      (({ cleanupTime := 10000000000, nextId := 1, cancelledIds := [0] } : Timeline).cleanupTime =
          ({} : Timeline).cleanupTime + 100 * Timeline.resolution {} ∧
        ({} : Timeline).cleanupTime + 100 * Timeline.resolution {} < 1000000000000000000) :=
  ⟨by decide, by decide, by decide, rfl, by decide,
   C3_sweep_throttle {} 0 1000000000000000000 0
     { cleanupTime := 10000000000, nextId := 1, cancelledIds := [0] } ⟨0, 0⟩ []
     { cleanupTime := 10000000000, nextId := 1, cancelledIds := [0] } 0 1000000000000000000
     (by decide) (by decide) (by decide) rfl (by decide)⟩

/-- C7 counterexample: the claim's "next Context call returns a new,
non-cancelled context" fails when the call's own sweep immediately
reclaims the new bucket: after `Cancel()` on a fresh timeline, a call for
the long-elapsed bucket of instant 0 at clock 10^18 returns the context
with identity 0, which the call itself has already cancelled (its id is in
the cancelled set of the resulting state). -/
theorem C7_counterexample :
    Timeline.Cancel {} = ({} : Timeline) ∧
      Timeline.Context {} 0 1000000000000000000 0 =
        some ({ cleanupTime := 10000000000, nextId := 1, cancelledIds := [0] }, ⟨0, 0⟩) ∧
      (⟨0, 0⟩ : DeadlineCtx).id ∈
        ({ cleanupTime := 10000000000, nextId := 1, cancelledIds := [0] } : Timeline).cancelledIds := by
  decide

/-- C7 (amended): `Cancel()` invokes the cancel function of every bucket
entry in the map and leaves the map empty; the timeline remains usable:
the next `Context` call (lazily re-populating the map) returns a freshly
created context, and that context is not cancelled provided the call's
clock has not already passed the new bucket's grace window. -/
theorem C7_cancel_then_fresh (t : Timeline) (a now j : Int)
    (hInv : t.Inv) (hr : 0 < t.resolution) (hj : 0 ≤ j)
    (hlive : now ≤ bucketKey t.resolution a + t.resolution) :
    (∀ kd ∈ t.deadlines, kd.2.id ∈ t.Cancel.cancelledIds) ∧
    t.Cancel.deadlines = [] ∧
    (∃ t', t.Cancel.Context a now j =
        some (t', (⟨t.nextId, bucketKey t.resolution a + j⟩ : DeadlineCtx)) ∧
      t.nextId ∉ t'.cancelledIds) := by
  refine ⟨?_, rfl, ?_⟩
  · intro kd hkd
    show kd.2.id ∈ t.deadlines.map (fun kd => kd.2.id) ++ t.cancelledIds
    exact List.mem_append_left _ (List.mem_map.mpr ⟨kd, hkd, rfl⟩)
  · refine ⟨(Aux.insertState t.Cancel a j).maybeSweep now, ?_, ?_⟩
    · have hnone : lookupDeadline t.Cancel.deadlines (bucketKey t.Cancel.resolution a) =
          none := rfl
      simp only [Timeline.Context, hnone]
      rw [if_neg (not_le.mpr (show (0:Int) < t.Cancel.resolution from hr))]
      rfl
    · intro hmem
      rcases (Aux.maybeSweep_cancelledIds_mem _ now _).mp hmem with ⟨_, kd, hkd, _, hlate⟩ | hold
      · rcases List.mem_cons.mp hkd with heq | habs
        · subst heq
          have hlate2 : bucketKey t.resolution a + j + t.resolution < now := hlate
          omega
        · exact absurd habs (List.not_mem_nil kd)
      · have hbound : ∀ i ∈ t.Cancel.cancelledIds, i < t.nextId :=
          (Aux.cancel_Inv hInv).2.2
        have := hbound _ hold
        omega

/-- Witness for C7 (amended): cancelling a one-entry timeline cancels its
context, empties the map, and a following call creates a fresh,
non-cancelled context. -/
theorem C7_witness :
    Timeline.Inv { deadlines := [(100000000, ⟨0, 100000005⟩)], nextId := 1 } ∧
      0 < ({ deadlines := [(100000000, ⟨0, 100000005⟩)], nextId := 1 } : Timeline).resolution ∧
      (0:Int) ≤ 0 ∧
      (0:Int) ≤ bucketKey
          ({ deadlines := [(100000000, ⟨0, 100000005⟩)], nextId := 1 } : Timeline).resolution 0 +
        ({ deadlines := [(100000000, ⟨0, 100000005⟩)], nextId := 1 } : Timeline).resolution ∧
      ((∀ kd ∈ ({ deadlines := [(100000000, ⟨0, 100000005⟩)], nextId := 1 } : Timeline).deadlines,
          kd.2.id ∈
            ({ deadlines := [(100000000, ⟨0, 100000005⟩)], nextId := 1 } : Timeline).Cancel.cancelledIds) ∧
        ({ deadlines := [(100000000, ⟨0, 100000005⟩)], nextId := 1 } : Timeline).Cancel.deadlines = [] ∧
        (∃ t', ({ deadlines := [(100000000, ⟨0, 100000005⟩)], nextId := 1 } : Timeline).Cancel.Context 0 0 0 =
            some (t', (⟨({ deadlines := [(100000000, ⟨0, 100000005⟩)], nextId := 1 } : Timeline).nextId,
              bucketKey
                ({ deadlines := [(100000000, ⟨0, 100000005⟩)], nextId := 1 } : Timeline).resolution 0 + 0⟩ :
                DeadlineCtx)) ∧
          ({ deadlines := [(100000000, ⟨0, 100000005⟩)], nextId := 1 } : Timeline).nextId ∉
            t'.cancelledIds)) :=
  ⟨⟨by decide, by decide, fun i hi => absurd hi (List.not_mem_nil i)⟩,
   by decide, le_refl 0, by decide,
   C7_cancel_then_fresh { deadlines := [(100000000, ⟨0, 100000005⟩)], nextId := 1 } 0 0 0
     ⟨by decide, by decide, fun i hi => absurd hi (List.not_mem_nil i)⟩
     (by decide) (le_refl 0) (by decide)⟩

/-- C6: the cleanup sweep cancels-and-removes a bucket entry exactly when
`now` is strictly after the entry's context deadline plus one resolution
(the grace window): an entry survives the sweep if and only if it was
present and `now` has not passed its deadline plus the grace resolution;
an entry that is removed has its cancel function invoked; and an entry
whose deadline has not yet elapsed is always left untouched. -/
theorem C6_cleanup_grace (t : Timeline) (now k : Int) (d : DeadlineCtx)
    (hr : 0 < t.resolution) :
    ((k, d) ∈ (t.cleanup now).deadlines ↔
      (k, d) ∈ t.deadlines ∧ now ≤ d.deadline + t.resolution) ∧
    ((k, d) ∈ t.deadlines → d.deadline + t.resolution < now →
      d.id ∈ (t.cleanup now).cancelledIds) ∧
    ((k, d) ∈ t.deadlines → now ≤ d.deadline → (k, d) ∈ (t.cleanup now).deadlines) := by
  have h1 : (k, d) ∈ (t.cleanup now).deadlines ↔
      (k, d) ∈ t.deadlines ∧ now ≤ d.deadline + t.resolution := by
    show (k, d) ∈ t.deadlines.filter
        (fun kd => !(decide (kd.2.deadline + t.resolution < now))) ↔ _
    rw [List.mem_filter]
    simp [not_lt]
  refine ⟨h1, ?_, ?_⟩
  · intro hmem hlate
    show d.id ∈ (t.deadlines.filter
        (fun kd => decide (kd.2.deadline + t.resolution < now))).map (fun kd => kd.2.id)
        ++ t.cancelledIds
    apply List.mem_append_left
    exact List.mem_map.mpr ⟨(k, d), List.mem_filter.mpr ⟨hmem, by simpa using hlate⟩, rfl⟩
  · intro hmem hnow
    exact h1.mpr ⟨hmem, by omega⟩

/-- Witness for C6 on a one-entry map: at resolution 10, an entry with
deadline 12 surveyed at `now = 5` is retained, and the characterization
instantiates. -/
theorem C6_witness :
    0 < ({ Resolution := 10, deadlines := [(10, ⟨0, 12⟩)] } : Timeline).resolution ∧
      (((10, (⟨0, 12⟩ : DeadlineCtx)) ∈
          (({ Resolution := 10, deadlines := [(10, ⟨0, 12⟩)] } : Timeline).cleanup 5).deadlines ↔
        (10, (⟨0, 12⟩ : DeadlineCtx)) ∈
          ({ Resolution := 10, deadlines := [(10, ⟨0, 12⟩)] } : Timeline).deadlines ∧
          (5:Int) ≤ (⟨0, 12⟩ : DeadlineCtx).deadline +
            ({ Resolution := 10, deadlines := [(10, ⟨0, 12⟩)] } : Timeline).resolution) ∧
      ((10, (⟨0, 12⟩ : DeadlineCtx)) ∈
          ({ Resolution := 10, deadlines := [(10, ⟨0, 12⟩)] } : Timeline).deadlines →
        (⟨0, 12⟩ : DeadlineCtx).deadline +
            ({ Resolution := 10, deadlines := [(10, ⟨0, 12⟩)] } : Timeline).resolution < 5 →
        (⟨0, 12⟩ : DeadlineCtx).id ∈
          (({ Resolution := 10, deadlines := [(10, ⟨0, 12⟩)] } : Timeline).cleanup 5).cancelledIds) ∧
      ((10, (⟨0, 12⟩ : DeadlineCtx)) ∈
          ({ Resolution := 10, deadlines := [(10, ⟨0, 12⟩)] } : Timeline).deadlines →
        (5:Int) ≤ (⟨0, 12⟩ : DeadlineCtx).deadline →
        (10, (⟨0, 12⟩ : DeadlineCtx)) ∈
          (({ Resolution := 10, deadlines := [(10, ⟨0, 12⟩)] } : Timeline).cleanup 5).deadlines)) :=
  ⟨by decide, C6_cleanup_grace _ 5 10 ⟨0, 12⟩ (by decide)⟩

/-- C2: on every well-formed timeline (jittered deadlines lie in their
bucket's window) and every successful `Context(at, now)` call with jitter
draw `j ∈ [0, r)`, the returned context's deadline is the bucket boundary
(the key instant) plus some offset in `[0, r)`; hence it is no earlier
than the boundary and no later than boundary + resolution. -/
theorem C2_deadline_bound (t : Timeline) (a now j : Int) (t' : Timeline) (d : DeadlineCtx)
    (hDI : t.DeadlineInv) (hj0 : 0 ≤ j) (hjr : j < t.resolution)
    (h : t.Context a now j = some (t', d)) :
    ∃ o, 0 ≤ o ∧ o < t.resolution ∧ d.deadline = bucketKey t.resolution a + o ∧
      bucketKey t.resolution a ≤ d.deadline ∧
      d.deadline ≤ bucketKey t.resolution a + t.resolution := by
  rcases Aux.context_some_cases h with ⟨hl, ht⟩ | ⟨hl, hrpos, hd, ht⟩
  · have hmem := Aux.lookupDeadline_mem hl
    have hb1 : bucketKey t.resolution a ≤ d.deadline := (hDI _ hmem).1
    have hb2 : d.deadline < bucketKey t.resolution a + t.resolution := (hDI _ hmem).2
    exact ⟨d.deadline - bucketKey t.resolution a,
      by omega, by omega, by omega, by omega, by omega⟩
  · subst hd
    refine ⟨j, hj0, hjr, rfl, ?_, ?_⟩
    · show bucketKey t.resolution a ≤ bucketKey t.resolution a + j
      omega
    · show bucketKey t.resolution a + j ≤ bucketKey t.resolution a + t.resolution
      omega

/-- Witness for C2: the first call on a fresh default timeline with jitter
0 returns a context whose deadline is exactly the bucket boundary. -/
theorem C2_witness :
    (0:Int) ≤ 0 ∧ (0:Int) < Timeline.resolution {} ∧
      Timeline.Context {} 0 0 0 =
        some ({ deadlines := [(0, ⟨0, 0⟩)], nextId := 1 }, ⟨0, 0⟩) ∧
      (∃ o, 0 ≤ o ∧ o < Timeline.resolution {} ∧
        (⟨0, 0⟩ : DeadlineCtx).deadline = bucketKey (Timeline.resolution {}) 0 + o ∧
        bucketKey (Timeline.resolution {}) 0 ≤ (⟨0, 0⟩ : DeadlineCtx).deadline ∧
        (⟨0, 0⟩ : DeadlineCtx).deadline ≤
          bucketKey (Timeline.resolution {}) 0 + Timeline.resolution {}) :=
  ⟨le_refl 0, by decide, by decide,
   C2_deadline_bound {} 0 0 0 { deadlines := [(0, ⟨0, 0⟩)], nextId := 1 } ⟨0, 0⟩
     (fun kd hkd => absurd hkd (List.not_mem_nil kd)) (le_refl 0) (by decide) (by decide)⟩

